import Mathlib

/- Shallow embedding of the parallel relaxation programs: the pthread
   shared-memory implementation (average_serial.c, second translation unit)
   and the MPI distributed implementation. Machine doubles are modelled as
   exact rationals; matrices are total functions from indices to values. -/

/- A square matrix, indexed (row, column). -/
abbrev Grid : Type := Nat → Nat → ℚ

/- Pointwise update of a grid at one cell. -/
def upd (g : Grid) (i j : Nat) (v : ℚ) : Grid :=
  fun a b => if a = i ∧ b = j then v else g a b

/- The four-neighbour average computed by relax_cells in the pthread code:
   (original[i][j-1] + original[i][j+1] + original[i-1][j] + original[i+1][j]) / 4.0 -/
def stencil (cur : Grid) (i j : Nat) : ℚ :=
  (cur i (j - 1) + cur i (j + 1) + cur (i - 1) j + cur (i + 1) j) / 4

/- One advance of the interior walk used by both relax_cells and
   determine_thread_data: j++; if (j == size - 1) { j = 1; i++; } -/
def step (size : Nat) (p : Nat × Nat) : Nat × Nat :=
  if p.2 + 1 = size - 1 then (p.1 + 1, 1) else (p.1, p.2 + 1)

/- Iterated interior walk. -/
def advance (size : Nat) (p : Nat × Nat) : Nat → Nat × Nat
  | 0 => p
  | k + 1 => advance size (step size p) k

/- Interior cell at row-major interior offset t, first interior cell being
   (1, 1). -/
def posOf (size t : Nat) : Nat × Nat :=
  (1 + t / (size - 2), 1 + t % (size - 2))

/- thread_args from the pthread implementation (matrix pointers are carried
   separately in this embedding). -/
structure ThreadArgs where
  id : Nat
  start_i : Nat
  start_j : Nat
  cells : Nat
deriving DecidableEq

/- The loop body of determine_thread_data: n threads remaining, next thread
   id, remaining extra cells, current start position. -/
def dtdGo (size cpt : Nat) : Nat → Nat → Nat → Nat × Nat → List ThreadArgs
  | 0, _, _, _ => []
  | n + 1, idx, rem, p =>
    let c := if 0 < rem then cpt + 1 else cpt
    { id := idx, start_i := p.1, start_j := p.2, cells := c } ::
      dtdGo size cpt n (idx + 1) (rem - 1) (advance size p c)

/- determine_thread_data from the pthread implementation.  Note the source
   computes the remainder as inner_cells % cells_per_thread. -/
def determine_thread_data (size num_threads : Nat) : List ThreadArgs :=
  let inner_cells := (size - 2) * (size - 2)
  let cells_per_thread := inner_cells / num_threads
  dtdGo size cells_per_thread num_threads 0 (inner_cells % cells_per_thread) (1, 1)

/- One pass of relax_cells by a single thread over its run of `cells` cells
   starting at (i, j): write the stencil average of `cur` into `next` at each
   visited cell, and clear the thread's precision flag whenever a cell moved
   by more than `prec`. -/
def relax_run (size : Nat) (prec : ℚ) (cur : Grid) :
    Nat → Nat → Nat → Grid → Bool → Grid × Bool
  | _, _, 0, next, flag => (next, flag)
  | i, j, c + 1, next, flag =>
    let v := (cur i (j - 1) + cur i (j + 1) + cur (i - 1) j + cur (i + 1) j) / 4
    let flag' := if prec < |v - cur i j| then false else flag
    let p := step size (i, j)
    relax_run size prec cur p.1 p.2 c (upd next i j v) flag'

/- One iteration of all worker threads.  Every thread reads only `cur`, so
   running them in sequence models the racefree concurrent execution.  Flags
   start true: the coordinator resets THREAD_PRECISION_REACHED to true before
   each pass. -/
def run_all (size : Nat) (prec : ℚ) (cur : Grid) :
    List ThreadArgs → Grid → Grid × List Bool
  | [], next => (next, [])
  | td :: rest, next =>
    let r := relax_run size prec cur td.start_i td.start_j td.cells next true
    let s := run_all size prec cur rest r.1
    (s.1, r.2 :: s.2)

/- The coordinator's flag-combining loop in relax_matrix_parallel: scan the
   per-thread flags, overwriting PRECISION_REACHED, breaking at the first
   false flag.  `pr` is the value PRECISION_REACHED already holds. -/
def combine_precision : Bool → List Bool → Bool
  | pr, [] => pr
  | _, f :: rest => if f then combine_precision true rest else false

/- The two buffers of relax_matrix_parallel: b0 is the `matrix` argument
   (the pointer the coordinator returns), b1 is `new_matrix`.  flip records
   the workers' buffer roles: when flip is false the workers read b0 and
   write b1. -/
structure SMState where
  b0 : Grid
  b1 : Grid
  flip : Bool

/- One coordinator iteration: workers relax into the current write buffer,
   the coordinator combines the flags (PRECISION_REACHED enters the scan
   holding false); if not converged the workers swap their pointers. -/
def sm_step (size W : Nat) (prec : ℚ) (st : SMState) : SMState × Bool :=
  let cur := if st.flip then st.b1 else st.b0
  let nxt := if st.flip then st.b0 else st.b1
  let r := run_all size prec cur (determine_thread_data size W) nxt
  let conv := combine_precision false r.2
  let flip' := if conv then st.flip else !st.flip
  (if st.flip then { b0 := r.1, b1 := st.b1, flip := flip' }
   else { b0 := st.b0, b1 := r.1, flip := flip' }, conv)

/- The coordinator loop, fuelled.  On convergence it returns b0, the fixed
   `matrix` pointer, exactly as the source's `return matrix`. -/
def sm_loop (size W : Nat) (prec : ℚ) : Nat → SMState → Option Grid
  | 0, _ => none
  | fuel + 1, st =>
    let r := sm_step size W prec st
    if r.2 then some r.1.b0 else sm_loop size W prec fuel r.1

/- relax_matrix_parallel: new_matrix starts as a copy of the input (the
   cached matrix_init contents equal the input grid). -/
def sm_run (size W : Nat) (prec : ℚ) (g : Grid) (fuel : Nat) : Option Grid :=
  sm_loop size W prec fuel { b0 := g, b1 := g, flip := false }

/- n coordinator iterations of the shared-memory loop, ignoring the
   convergence decision (used to speak about every iteration count). -/
def sm_iterate (size W : Nat) (prec : ℚ) : Nat → SMState → SMState
  | 0, st => st
  | n + 1, st => sm_iterate size W prec n (sm_step size W prec st).1

/- Outcome of a shared-memory run when the C division semantics are made
   explicit: the run can abort with a division fault before the coordinator
   loop, exhaust its fuel with the loop still running, or converge. -/
inductive SMOutcome where
  | divFault : SMOutcome
  | running : SMOutcome
  | done : Grid → SMOutcome

/- determine_thread_data with the C division semantics made explicit:
   cells_per_thread = inner_cells / num_threads divides by zero when
   num_threads = 0 (undefined behaviour, SIGFPE in practice), and
   remainder = inner_cells % cells_per_thread divides by zero when
   cells_per_thread = 0; either fault is `none`. -/
def determine_thread_data_checked (size num_threads : Nat) :
    Option (List ThreadArgs) :=
  let inner_cells := (size - 2) * (size - 2)
  if num_threads = 0 then none
  else
    let cells_per_thread := inner_cells / num_threads
    if cells_per_thread = 0 then none
    else some (dtdGo size cells_per_thread num_threads 0
      (inner_cells % cells_per_thread) (1, 1))

/- relax_matrix_parallel with the division fault made explicit: the
   thread-data computation runs before the coordinator loop, so a division
   by zero aborts the run before any iteration; otherwise the run proceeds
   exactly as sm_run. -/
def relax_matrix_parallel_checked (size W : Nat) (prec : ℚ) (g : Grid)
    (fuel : Nat) : SMOutcome :=
  match determine_thread_data_checked size W with
  | none => SMOutcome.divFault
  | some _ =>
      match sm_run size W prec g fuel with
      | none => SMOutcome.running
      | some res => SMOutcome.done res

/- The thread-count clamp in the pthread main. -/
def clamp_num_threads (size num_threads : Nat) : Nat :=
  if num_threads > (size - 2) * (size - 2) then (size - 2) * (size - 2)
  else num_threads

/- Outcome of the MPI main's process-count validation. -/
inductive MpiArgCheck where
  | rejected : MpiArgCheck
  | proceed : Nat → MpiArgCheck
deriving DecidableEq

/- The MPI main: a process count above (size - 2) is rejected with an error
   (return 1); otherwise the run proceeds with the requested count. -/
def mpi_worker_resolution (size num_processes : Nat) : MpiArgCheck :=
  if num_processes > size - 2 then MpiArgCheck.rejected
  else MpiArgCheck.proceed num_processes

/- Does the thread's run visit cell p within its first `cells` steps? -/
def coversB (size : Nat) (td : ThreadArgs) (p : Nat × Nat) : Bool :=
  (List.range td.cells).any
    (fun k => advance size (td.start_i, td.start_j) k == p)

/- A 3 x 3 grid with all boundary cells 1 and the single interior cell 0. -/
def demoGrid : Grid :=
  fun i j => if i = 0 ∨ j = 0 ∨ 2 ≤ i ∨ 2 ≤ j then 1 else 0

/- A flat row-major matrix as used by the MPI implementation. -/
abbrev FlatGrid : Type := Nat → ℚ

/- Pointwise update of a flat matrix. -/
def fupd (g : FlatGrid) (k : Nat) (v : ℚ) : FlatGrid :=
  fun a => if a = k then v else g a

/- The four-neighbour average computed by the MPI relax_cells:
   (input[i-size] + input[i+size] + input[i-1] + input[i+1]) / 4 -/
def stencilFlat (size : Nat) (input : FlatGrid) (ii : Nat) : ℚ :=
  (input (ii - size) + input (ii + size) + input (ii - 1) + input (ii + 1)) / 4

/- Per-process scatter/gather counts and displacements computed by the MPI
   relax_matrix_parallel. -/
structure ScatterInfo where
  scatter_displ : Nat
  scatter_count : Nat
  gather_count : Nat
  gather_displ : Nat
deriving DecidableEq

/- The loop computing the scatter/gather tables: n processes remaining,
   remaining extra rows, current scatter offset. -/
def mpiGo (size rpp : Nat) : Nat → Nat → Nat → List ScatterInfo
  | 0, _, _ => []
  | n + 1, rem, offset =>
    let c := (rpp + 2) * size + (if 0 < rem then size else 0)
    { scatter_displ := offset, scatter_count := c,
      gather_count := c - 2 * size, gather_displ := offset + size } ::
      mpiGo size rpp n (rem - 1) (offset + (c - 2 * size))

/- The scatter/gather tables of the MPI relax_matrix_parallel:
   rows_per_process = (size-2) / num_processes and the remainder rows go to
   the earliest processes. -/
def mpi_partition (size num_processes : Nat) : List ScatterInfo :=
  mpiGo size ((size - 2) / num_processes) num_processes
    ((size - 2) % num_processes) 0

/- The loop body of the MPI relax_cells at input index ii: edge columns are
   copied through, other cells receive the stencil average; the precision
   comparison short-circuits once the flag is already false. -/
def rc_step (size : Nat) (prec : ℚ) (input : FlatGrid)
    (st : FlatGrid × Bool) (ii : Nat) : FlatGrid × Bool :=
  if ii % size = 0 ∨ (ii + 1) % size = 0 then
    (fupd st.1 (ii - size) (input ii), st.2)
  else
    let v := (input (ii - size) + input (ii + size) + input (ii - 1) +
              input (ii + 1)) / 4
    (fupd st.1 (ii - size) v,
     if st.2 = true ∧ prec < |v - input ii| then false else st.2)

/- The MPI relax_cells: walk input indices from `size` (first working cell)
   to input_size - size - 1 (last working cell), writing result index
   ii - size; the local precision flag is reset to true on entry. -/
def relax_cells_mpi (size : Nat) (prec : ℚ) (input : FlatGrid)
    (input_size : Nat) : FlatGrid × Bool :=
  (List.range' size (input_size - 2 * size)).foldl
    (rc_step size prec input) (fun _ => 0, true)

/- MPI_Gatherv of one process's result rows back into the canonical matrix. -/
def gatherOne (m : FlatGrid) (info : ScatterInfo) (res : FlatGrid) : FlatGrid :=
  fun idx =>
    if info.gather_displ ≤ idx ∧ idx < info.gather_displ + info.gather_count
    then res (idx - info.gather_displ) else m idx

/- One iteration of the MPI loop: scatter each process its chunk, relax it,
   AND-reduce the local flags, gather working rows back into the matrix. -/
def mpi_round (size num_processes : Nat) (prec : ℚ) (m : FlatGrid) :
    FlatGrid × Bool :=
  let infos := mpi_partition size num_processes
  let rs := infos.map (fun info =>
    relax_cells_mpi size prec (fun k => m (info.scatter_displ + k))
      info.scatter_count)
  ((infos.zip rs).foldl (fun acc pr => gatherOne acc pr.1 pr.2.1) m,
   (rs.map Prod.snd).all (fun b => b))

/- n iterations of the MPI loop (the matrix value, ignoring convergence). -/
def mpi_iterate (size num_processes : Nat) (prec : ℚ) (m : FlatGrid) :
    Nat → FlatGrid
  | 0 => m
  | n + 1 => mpi_iterate size num_processes prec
      (mpi_round size num_processes prec m).1 n

/- The MPI matrix_init: cell i is 1 when it lies in the first row, the last
   row, the first column or the last column, and 0 otherwise. -/
def matrix_init_mpi (size : Nat) : FlatGrid :=
  fun i =>
    if i % size = 0 ∨ i < size ∨ size * (size - 1) ≤ i ∨ i % size = size - 1
    then 1 else 0

/- The column loop of the pthread matrix_init on its first call: walk the
   remaining `fuel` columns of row i starting at column j, writing 1 on the
   top row and left column and the next pseudo-random draw elsewhere.
   `ctr` counts the rand() calls made so far. -/
def init_cols (size : Nat) (rand : Nat → ℚ) (i : Nat) :
    Nat → Nat → Grid → Nat → Grid × Nat
  | _, 0, g, ctr => (g, ctr)
  | j, fuel + 1, g, ctr =>
    if i = 0 ∨ j = 0 then
      init_cols size rand i (j + 1) fuel (upd g i j 1) ctr
    else
      init_cols size rand i (j + 1) fuel (upd g i j (rand ctr)) (ctr + 1)

/- The row loop of the pthread matrix_init on its first call. -/
def init_rows (size : Nat) (rand : Nat → ℚ) :
    Nat → Nat → Grid → Nat → Grid × Nat
  | _, 0, g, ctr => (g, ctr)
  | i, fuel + 1, g, ctr =>
    let r := init_cols size rand i 0 size g ctr
    init_rows size rand (i + 1) fuel r.1 r.2

/- The pthread matrix_init on its first call (shared_args.matrix == NULL):
   rand abstracts the seeded srand(42)/rand() stream, rand k being the k-th
   draw divided by RAND_MAX. -/
def matrix_init (size : Nat) (rand : Nat → ℚ) : Grid :=
  (init_rows size rand 0 size (fun _ _ => 0) 0).1

/- The run-level caching of the pthread matrix_init: the first call fills
   shared_args.matrix and every later call copies it. -/
def matrix_init_cached (size : Nat) (rand : Nat → ℚ) :
    Option Grid → Grid × Option Grid
  | some m => (m, some m)
  | none => (matrix_init size rand, some (matrix_init size rand))

/- Closed forms for the quantities of determine_thread_data, with
   num_threads abbreviated W: cells_per_thread, the initial remainder, the
   interior offset at which thread m starts, and the cell count of
   thread m. -/

def dtd_cpt (size W : Nat) : Nat := (size - 2) * (size - 2) / W

def dtd_rem (size W : Nat) : Nat := (size - 2) * (size - 2) % dtd_cpt size W

def dtd_off (size W m : Nat) : Nat := m * dtd_cpt size W + min m (dtd_rem size W)

def dtd_cells (size W m : Nat) : Nat :=
  dtd_cpt size W + if m < dtd_rem size W then 1 else 0

/- Closed forms for the quantities of the MPI partition: rows per process,
   the remainder rows, the working-row count of process m, and the number of
   working rows before process m. -/

def mpi_rpp (size np : Nat) : Nat := (size - 2) / np

def mpi_remr (size np : Nat) : Nat := (size - 2) % np

def mpi_w (size np m : Nat) : Nat :=
  mpi_rpp size np + if m < mpi_remr size np then 1 else 0

def mpi_offr (size np m : Nat) : Nat :=
  m * mpi_rpp size np + min m (mpi_remr size np)

/- Interior-walk arithmetic. -/

theorem advance_succ (size : Nat) (p : Nat × Nat) (k : Nat) :
    advance size p (k + 1) = advance size (step size p) k := rfl

theorem step_posOf {size : Nat} (hs : 3 ≤ size) (t : Nat) :
    step size (posOf size t) = posOf size (t + 1) := by
  have hd : 0 < size - 2 := by omega
  have hdm := Nat.div_add_mod t (size - 2)
  have hmlt : t % (size - 2) < size - 2 := Nat.mod_lt _ hd
  by_cases hc : t % (size - 2) = size - 3
  · have h1 : t + 1 = (size - 2) * (t / (size - 2) + 1) := by
      rw [Nat.mul_add, Nat.mul_one]; omega
    have h2 : (t + 1) / (size - 2) = t / (size - 2) + 1 := by
      rw [h1, Nat.mul_div_cancel_left _ hd]
    have h3 : (t + 1) % (size - 2) = 0 := by
      rw [h1, Nat.mul_mod_right]
    have hcond : 1 + t % (size - 2) + 1 = size - 1 := by omega
    unfold step posOf
    dsimp only
    rw [if_pos hcond, h2, h3]
    rw [Prod.mk.injEq]
    omega
  · have h2 : (t + 1) / (size - 2) = t / (size - 2) ∧
        (t + 1) % (size - 2) = t % (size - 2) + 1 :=
      (Nat.div_mod_unique hd).2 (by constructor <;> omega)
    have hcond : ¬(1 + t % (size - 2) + 1 = size - 1) := by omega
    unfold step posOf
    dsimp only
    rw [if_neg hcond, h2.1, h2.2, Prod.mk.injEq]
    omega

theorem advance_posOf {size : Nat} (hs : 3 ≤ size) (t : Nat) :
    ∀ k, advance size (posOf size t) k = posOf size (t + k) := by
  intro k
  induction k generalizing t with
  | zero => rfl
  | succ k ih =>
    rw [advance_succ, step_posOf hs, ih (t + 1)]
    congr 1
    omega

theorem posOf_inj {size : Nat} (hs : 3 ≤ size) {a b : Nat}
    (h : posOf size a = posOf size b) : a = b := by
  have hd : 0 < size - 2 := by omega
  unfold posOf at h
  have h1 : a / (size - 2) = b / (size - 2) := by
    have := congrArg Prod.fst h; simpa using this
  have h2 : a % (size - 2) = b % (size - 2) := by
    have := congrArg Prod.snd h; simpa using this
  have ha := Nat.div_add_mod a (size - 2)
  have hb := Nat.div_add_mod b (size - 2)
  rw [h1, h2] at ha
  omega

theorem posOf_zero (size : Nat) : posOf size 0 = (1, 1) := by
  unfold posOf
  simp

theorem posOf_bounds {size t : Nat} (hs : 3 ≤ size)
    (ht : t < (size - 2) * (size - 2)) :
    1 ≤ (posOf size t).1 ∧ (posOf size t).1 ≤ size - 2 ∧
      1 ≤ (posOf size t).2 ∧ (posOf size t).2 ≤ size - 2 := by
  have hd : 0 < size - 2 := by omega
  have hdiv : t / (size - 2) < size - 2 := Nat.div_lt_of_lt_mul ht
  have hmod : t % (size - 2) < size - 2 := Nat.mod_lt _ hd
  refine ⟨Nat.le_add_right 1 _, ?_, Nat.le_add_right 1 _, ?_⟩
  · show 1 + t / (size - 2) ≤ size - 2
    rw [Nat.add_comm]
    exact hdiv
  · show 1 + t % (size - 2) ≤ size - 2
    rw [Nat.add_comm]
    exact hmod

/- Properties of a single thread's relaxation pass. -/

theorem relax_run_untouched (size : Nat) (prec : ℚ) (cur : Grid) :
    ∀ (c i j : Nat) (next : Grid) (flag : Bool) (a b : Nat),
      (∀ k, k < c → advance size (i, j) k ≠ (a, b)) →
      (relax_run size prec cur i j c next flag).1 a b = next a b := by
  intro c
  induction c with
  | zero => intro i j next flag a b _; rfl
  | succ c ih =>
    intro i j next flag a b h
    simp only [relax_run]
    rw [ih _ _ _ _ a b ?_]
    · have h0 : (i, j) ≠ (a, b) := h 0 (Nat.succ_pos c)
      simp only [upd]
      rw [if_neg ?_]
      intro hab
      exact h0 (by rw [hab.1, hab.2])
    · intro k hk
      exact h (k + 1) (by omega)

theorem relax_run_fst_flag (size : Nat) (prec : ℚ) (cur : Grid) :
    ∀ (c i j : Nat) (next : Grid) (flag flag' : Bool),
      (relax_run size prec cur i j c next flag).1 =
        (relax_run size prec cur i j c next flag').1 := by
  intro c
  induction c with
  | zero => intro i j next flag flag'; rfl
  | succ c ih =>
    intro i j next flag flag'
    simp only [relax_run]
    exact ih _ _ _ _ _

theorem relax_run_snd_next (size : Nat) (prec : ℚ) (cur : Grid) :
    ∀ (c i j : Nat) (next next' : Grid) (flag : Bool),
      (relax_run size prec cur i j c next flag).2 =
        (relax_run size prec cur i j c next' flag).2 := by
  intro c
  induction c with
  | zero => intro i j next next' flag; rfl
  | succ c ih =>
    intro i j next next' flag
    simp only [relax_run]
    exact ih _ _ _ _ _

theorem relax_run_snd_iff (size : Nat) (prec : ℚ) (cur : Grid) :
    ∀ (c i j : Nat) (next : Grid) (flag : Bool),
      ((relax_run size prec cur i j c next flag).2 = true ↔
        (flag = true ∧ ∀ k, k < c →
          |stencil cur (advance size (i, j) k).1 (advance size (i, j) k).2 -
            cur (advance size (i, j) k).1 (advance size (i, j) k).2| ≤ prec)) := by
  intro c
  induction c with
  | zero =>
    intro i j next flag
    simp only [relax_run]
    constructor
    · intro h; exact ⟨h, by omega⟩
    · intro h; exact h.1
  | succ c ih =>
    intro i j next flag
    simp only [relax_run]
    rw [ih]
    constructor
    · rintro ⟨hf, hall⟩
      by_cases hd : prec < |stencil cur i j - cur i j|
      · rw [if_pos ?_] at hf
        · exact absurd hf (by simp)
        · simpa [stencil] using hd
      · refine ⟨by rwa [if_neg (by simpa [stencil] using hd)] at hf, ?_⟩
        intro k hk
        match k with
        | 0 => exact le_of_not_lt hd
        | k + 1 => exact hall k (by omega)
    · rintro ⟨hf, hall⟩
      have h0 := hall 0 (Nat.succ_pos c)
      refine ⟨?_, fun k hk => hall (k + 1) (by omega)⟩
      rw [if_neg ?_]
      · exact hf
      · simp only [stencil] at h0
        simp only [not_lt]
        exact h0

theorem relax_run_value {size : Nat} (prec : ℚ) (cur : Grid) (hs : 3 ≤ size) :
    ∀ (c t k : Nat) (next : Grid) (flag : Bool), k < c →
      (relax_run size prec cur (posOf size t).1 (posOf size t).2 c next flag).1
          (posOf size (t + k)).1 (posOf size (t + k)).2 =
        stencil cur (posOf size (t + k)).1 (posOf size (t + k)).2 := by
  intro c
  induction c with
  | zero => intro t k next flag hk; omega
  | succ c ih =>
    intro t k next flag hk
    simp only [relax_run]
    have hstep : step size ((posOf size t).1, (posOf size t).2) =
        posOf size (t + 1) := by
      rw [show ((posOf size t).1, (posOf size t).2) = posOf size t from rfl]
      exact step_posOf hs t
    match k with
    | 0 =>
      rw [relax_run_untouched size prec cur c _ _ _ _ _ _ ?_]
      · simp [upd, stencil, Nat.add_zero]
      · intro k' hk' hne
        rw [show ((step size ((posOf size t).1, (posOf size t).2)).1,
              (step size ((posOf size t).1, (posOf size t).2)).2) =
            step size ((posOf size t).1, (posOf size t).2) from rfl] at hne
        rw [hstep, advance_posOf hs (t + 1) k'] at hne
        have := posOf_inj hs hne
        omega
    | k' + 1 =>
      have := ih (t + 1) k' (upd next (posOf size t).1 (posOf size t).2
        (stencil cur (posOf size t).1 (posOf size t).2))
        (if prec < |stencil cur (posOf size t).1 (posOf size t).2 -
            cur (posOf size t).1 (posOf size t).2| then false else flag)
        (by omega)
      rw [show t + (k' + 1) = t + 1 + k' from by omega]
      rw [show (relax_run size prec cur (step size ((posOf size t).1,
            (posOf size t).2)).1 (step size ((posOf size t).1,
            (posOf size t).2)).2 c
            (upd next (posOf size t).1 (posOf size t).2
              ((cur (posOf size t).1 ((posOf size t).2 - 1) +
                cur (posOf size t).1 ((posOf size t).2 + 1) +
                cur ((posOf size t).1 - 1) (posOf size t).2 +
                cur ((posOf size t).1 + 1) (posOf size t).2) / 4))
            (if prec < |(cur (posOf size t).1 ((posOf size t).2 - 1) +
                cur (posOf size t).1 ((posOf size t).2 + 1) +
                cur ((posOf size t).1 - 1) (posOf size t).2 +
                cur ((posOf size t).1 + 1) (posOf size t).2) / 4 -
                cur (posOf size t).1 (posOf size t).2| then false else flag)).1 =
          (relax_run size prec cur (posOf size (t + 1)).1 (posOf size (t + 1)).2 c
            (upd next (posOf size t).1 (posOf size t).2
              (stencil cur (posOf size t).1 (posOf size t).2))
            (if prec < |stencil cur (posOf size t).1 (posOf size t).2 -
                cur (posOf size t).1 (posOf size t).2| then false else flag)).1
          from by rw [← hstep]; rfl]
      exact this

/- The coordinator's flag scan computes the conjunction of the flags
   whenever there is at least one worker. -/

theorem combine_precision_cons (pr f : Bool) (rest : List Bool) :
    combine_precision pr (f :: rest) =
      if f then combine_precision true rest else false := rfl

theorem combine_precision_ne_nil :
    ∀ (flags : List Bool) (pr : Bool), flags ≠ [] →
      combine_precision pr flags = flags.all (fun b => b) := by
  intro flags
  induction flags with
  | nil => intro pr h; exact absurd rfl h
  | cons f rest ih =>
    intro pr _
    rw [combine_precision_cons]
    match rest with
    | [] =>
      cases f <;> simp [combine_precision]
    | g :: rest' =>
      cases f
      · simp
      · rw [if_pos (by simp), ih true (by simp)]
        simp

/- Characterisation of determine_thread_data. -/

theorem dtdGo_length (size cpt : Nat) :
    ∀ (n idx rem : Nat) (p : Nat × Nat),
      (dtdGo size cpt n idx rem p).length = n := by
  intro n
  induction n with
  | zero => intro idx rem p; rfl
  | succ n ih =>
    intro idx rem p
    simp only [dtdGo, List.length_cons]
    rw [ih]

theorem dtdGo_getElem {size : Nat} (cpt : Nat) (hs : 3 ≤ size) :
    ∀ (n off rem idx m : Nat), m < n →
      (dtdGo size cpt n idx rem (posOf size off))[m]? =
        some { id := idx + m,
               start_i := (posOf size (off + m * cpt + min m rem)).1,
               start_j := (posOf size (off + m * cpt + min m rem)).2,
               cells := cpt + if m < rem then 1 else 0 } := by
  intro n
  induction n with
  | zero => intro off rem idx m hm; omega
  | succ n ih =>
    intro off rem idx m hm
    match m with
    | 0 =>
      rcases Nat.eq_zero_or_pos rem with h | h
      · simp [dtdGo, h]
      · simp [dtdGo, h]
    | m + 1 =>
      have harg : off + (if 0 < rem then cpt + 1 else cpt) + m * cpt +
          min m (rem - 1) = off + (m + 1) * cpt + min (m + 1) rem := by
        rcases Nat.eq_zero_or_pos rem with h | h
        · subst h
          rw [if_neg (by omega), Nat.succ_mul]
          omega
        · rw [if_pos h, Nat.succ_mul]
          omega
      have hcells : (if m < rem - 1 then 1 else 0) =
          (if m + 1 < rem then 1 else 0) := if_congr (by omega) rfl rfl
      simp only [dtdGo, List.getElem?_cons_succ]
      rw [advance_posOf hs off]
      rw [ih (off + (if 0 < rem then cpt + 1 else cpt)) (rem - 1) (idx + 1) m
        (by omega)]
      rw [harg, hcells]
      have hid : idx + 1 + m = idx + (m + 1) := by omega
      rw [hid]

theorem determine_thread_data_length (size W : Nat) :
    (determine_thread_data size W).length = W :=
  dtdGo_length size _ W 0 _ (1, 1)

theorem dtd_getElem {size W m : Nat} (hs : 3 ≤ size) (hm : m < W) :
    (determine_thread_data size W)[m]? =
      some { id := m, start_i := (posOf size (dtd_off size W m)).1,
             start_j := (posOf size (dtd_off size W m)).2,
             cells := dtd_cells size W m } := by
  simp only [determine_thread_data]
  rw [← posOf_zero size]
  rw [dtdGo_getElem _ hs _ 0 _ 0 m hm]
  simp only [Nat.zero_add, dtd_off, dtd_cells, dtd_cpt, dtd_rem]

theorem dtd_off_cells_le {size W m : Nat} (hm : m < W) :
    dtd_off size W m + dtd_cells size W m ≤ (size - 2) * (size - 2) := by
  have h1 : W * dtd_cpt size W + (size - 2) * (size - 2) % W =
      (size - 2) * (size - 2) := Nat.div_add_mod _ W
  have h2 : dtd_rem size W ≤ (size - 2) * (size - 2) % W := by
    calc dtd_rem size W
        = (W * dtd_cpt size W + (size - 2) * (size - 2) % W) %
            dtd_cpt size W := by rw [h1]; rfl
      _ = (dtd_cpt size W * W + (size - 2) * (size - 2) % W) %
            dtd_cpt size W := by rw [Nat.mul_comm]
      _ = ((size - 2) * (size - 2) % W) % dtd_cpt size W := by
            rw [Nat.mul_add_mod]
      _ ≤ (size - 2) * (size - 2) % W := Nat.mod_le _ _
  have hle1 : (m + 1) * dtd_cpt size W ≤ W * dtd_cpt size W :=
    Nat.mul_le_mul_right _ (by omega)
  rw [Nat.succ_mul] at hle1
  simp only [dtd_off, dtd_cells]
  by_cases hmr : m < dtd_rem size W
  · rw [if_pos hmr]
    omega
  · rw [if_neg hmr]
    omega

theorem dtd_mem_char {size W : Nat} (hs : 3 ≤ size) {td : ThreadArgs}
    (htd : td ∈ determine_thread_data size W) :
    ∃ m, m < W ∧
      td = { id := m, start_i := (posOf size (dtd_off size W m)).1,
             start_j := (posOf size (dtd_off size W m)).2,
             cells := dtd_cells size W m } := by
  rw [List.mem_iff_getElem] at htd
  obtain ⟨i, hi, hei⟩ := htd
  have hlen := determine_thread_data_length size W
  have hiW : i < W := by omega
  refine ⟨i, hiW, ?_⟩
  have h1 : (determine_thread_data size W)[i]? = some td := by
    rw [List.getElem?_eq_getElem hi, hei]
  rw [dtd_getElem hs hiW] at h1
  exact (Option.some.injEq _ _).mp h1.symm

theorem dtd_visit_interior {size W : Nat} (hs : 3 ≤ size) {td : ThreadArgs}
    (htd : td ∈ determine_thread_data size W) {k : Nat} (hk : k < td.cells) :
    1 ≤ (advance size (td.start_i, td.start_j) k).1 ∧
      (advance size (td.start_i, td.start_j) k).1 ≤ size - 2 ∧
      1 ≤ (advance size (td.start_i, td.start_j) k).2 ∧
      (advance size (td.start_i, td.start_j) k).2 ≤ size - 2 := by
  obtain ⟨m, hm, rfl⟩ := dtd_mem_char hs htd
  have hadv : advance size
      ((posOf size (dtd_off size W m)).1, (posOf size (dtd_off size W m)).2) k =
      posOf size (dtd_off size W m + k) := advance_posOf hs _ k
  rw [hadv]
  refine posOf_bounds hs ?_
  have := @dtd_off_cells_le size W m hm
  have hk' : k < dtd_cells size W m := hk
  omega

/- Untouched cells of a full multi-thread pass keep their old value. -/

theorem run_all_untouched (size : Nat) (prec : ℚ) (cur : Grid) :
    ∀ (tds : List ThreadArgs) (next : Grid) (a b : Nat),
      (∀ td ∈ tds, ∀ k, k < td.cells →
        advance size (td.start_i, td.start_j) k ≠ (a, b)) →
      (run_all size prec cur tds next).1 a b = next a b := by
  intro tds
  induction tds with
  | nil => intro next a b _; rfl
  | cons td rest ih =>
    intro next a b h
    simp only [run_all]
    rw [ih _ a b (fun td' htd' => h td' (List.mem_cons_of_mem td htd'))]
    exact relax_run_untouched size prec cur _ _ _ _ _ a b
      (h td (List.mem_cons_self td rest))

/- One coordinator iteration never changes a boundary cell of either
   buffer. -/

theorem sm_step_boundary {size W : Nat} (prec : ℚ) (hs : 3 ≤ size)
    (st : SMState) (a b : Nat)
    (hb : a = 0 ∨ b = 0 ∨ a = size - 1 ∨ b = size - 1) :
    (sm_step size W prec st).1.b0 a b = st.b0 a b ∧
      (sm_step size W prec st).1.b1 a b = st.b1 a b := by
  have hno : ∀ td ∈ determine_thread_data size W, ∀ k, k < td.cells →
      advance size (td.start_i, td.start_j) k ≠ (a, b) := by
    intro td htd k hk heq
    have hbds := dtd_visit_interior hs htd hk
    rw [heq] at hbds
    have hbds' : 1 ≤ a ∧ a ≤ size - 2 ∧ 1 ≤ b ∧ b ≤ size - 2 := hbds
    omega
  simp only [sm_step]
  rcases Bool.eq_false_or_eq_true st.flip with hf | hf <;> rw [hf]
  · exact ⟨run_all_untouched size prec st.b1 _ st.b0 a b hno, rfl⟩
  · exact ⟨rfl, run_all_untouched size prec st.b0 _ st.b1 a b hno⟩

theorem sm_iterate_boundary {size W : Nat} (prec : ℚ) (hs : 3 ≤ size) :
    ∀ (n : Nat) (st : SMState) (a b : Nat),
      (a = 0 ∨ b = 0 ∨ a = size - 1 ∨ b = size - 1) →
      (sm_iterate size W prec n st).b0 a b = st.b0 a b ∧
        (sm_iterate size W prec n st).b1 a b = st.b1 a b := by
  intro n
  induction n with
  | zero => intro st a b _; exact ⟨rfl, rfl⟩
  | succ n ih =>
    intro st a b hb
    have h1 := @sm_step_boundary size W prec hs st a b hb
    have h2 := ih (sm_step size W prec st).1 a b hb
    simp only [sm_iterate]
    exact ⟨h2.1.trans h1.1, h2.2.trans h1.2⟩

/- Characterisation of the MPI scatter/gather tables. -/

theorem mpiGo_length (size rpp : Nat) :
    ∀ (n rem off : Nat), (mpiGo size rpp n rem off).length = n := by
  intro n
  induction n with
  | zero => intro rem off; rfl
  | succ n ih =>
    intro rem off
    simp only [mpiGo, List.length_cons]
    rw [ih]

theorem mpiGo_getElem (size rpp : Nat) :
    ∀ (n rem off m : Nat), m < n →
      (mpiGo size rpp n rem off)[m]? =
        some { scatter_displ := off + (m * rpp + min m rem) * size,
               scatter_count := (rpp + (if m < rem then 1 else 0) + 2) * size,
               gather_count := (rpp + (if m < rem then 1 else 0)) * size,
               gather_displ := off + (m * rpp + min m rem) * size + size } := by
  intro n
  induction n with
  | zero => intro rem off m hm; omega
  | succ n ih =>
    intro rem off m hm
    match m with
    | 0 =>
      rcases Nat.eq_zero_or_pos rem with h | h
      · subst h
        have hsub : (rpp + 2) * size - 2 * size = rpp * size := by
          have : (rpp + 2) * size = rpp * size + 2 * size := by ring
          omega
        simp only [mpiGo, List.getElem?_cons_zero, if_neg (by omega : ¬0 < 0),
          Nat.add_zero, Nat.zero_sub, hsub, Nat.zero_mul, Nat.zero_min,
          Nat.zero_add]
      · have hsub : (rpp + 2) * size + size - 2 * size = (rpp + 1) * size := by
          have h1 : (rpp + 2) * size = rpp * size + 2 * size := by ring
          have h2 : (rpp + 1) * size = rpp * size + size := by ring
          omega
        have hcount : (rpp + 2) * size + size = (rpp + 1 + 2) * size := by ring
        have hgc : (rpp + 1 + 2) * size - 2 * size = (rpp + 1) * size := by
          have h3 : (rpp + 1 + 2) * size = (rpp + 1) * size + 2 * size := by
            ring
          omega
        simp only [mpiGo, List.getElem?_cons_zero, if_pos h, hsub, hcount, hgc,
          Nat.zero_mul, Nat.zero_min, Nat.zero_add, Nat.add_zero]
    | m + 1 =>
      have hmlt : m < n := by omega
      rcases Nat.eq_zero_or_pos rem with h | h
      · subst h
        simp only [mpiGo, List.getElem?_cons_succ, if_neg (by omega : ¬0 < 0),
          Nat.add_zero, Nat.zero_sub]
        have hsub : (rpp + 2) * size - 2 * size = rpp * size := by
          have : (rpp + 2) * size = rpp * size + 2 * size := by ring
          omega
        rw [hsub, ih 0 (off + rpp * size) m hmlt]
        have hdispl : off + rpp * size + (m * rpp + min m 0) * size =
            off + ((m + 1) * rpp + min (m + 1) 0) * size := by
          simp only [Nat.min_zero]
          ring
        have hif0 : (if m < 0 then 1 else 0) = (if m + 1 < 0 then 1 else 0) :=
          if_congr (by omega) rfl rfl
        rw [hdispl, hif0]
      · simp only [mpiGo, List.getElem?_cons_succ, if_pos h]
        have hsub : (rpp + 2) * size + size - 2 * size = (rpp + 1) * size := by
          have h1 : (rpp + 2) * size = rpp * size + 2 * size := by ring
          have h2 : (rpp + 1) * size = rpp * size + size := by ring
          omega
        rw [hsub, ih (rem - 1) (off + (rpp + 1) * size) m hmlt]
        have hmin : min (m + 1) rem = min m (rem - 1) + 1 := by omega
        have hdispl : off + (rpp + 1) * size + (m * rpp + min m (rem - 1)) * size =
            off + ((m + 1) * rpp + min (m + 1) rem) * size := by
          rw [hmin]
          ring
        have hif : (if m < rem - 1 then 1 else 0) =
            (if m + 1 < rem then 1 else 0) := if_congr (by omega) rfl rfl
        rw [hdispl, hif]

/- Characterisation of the MPI relax_cells loop. -/

theorem rc_step_fst (size : Nat) (prec : ℚ) (input : FlatGrid)
    (st : FlatGrid × Bool) (ii : Nat) :
    (rc_step size prec input st ii).1 =
      fupd st.1 (ii - size)
        (if ii % size = 0 ∨ (ii + 1) % size = 0 then input ii
         else stencilFlat size input ii) := by
  by_cases h : ii % size = 0 ∨ (ii + 1) % size = 0
  · simp [rc_step, h]
  · simp [rc_step, h, stencilFlat]

theorem rc_step_snd (size : Nat) (prec : ℚ) (input : FlatGrid)
    (st : FlatGrid × Bool) (ii : Nat) :
    (rc_step size prec input st ii).2 =
      if ii % size = 0 ∨ (ii + 1) % size = 0 then st.2
      else if st.2 = true ∧ prec < |stencilFlat size input ii - input ii|
        then false else st.2 := by
  by_cases h : ii % size = 0 ∨ (ii + 1) % size = 0
  · simp [rc_step, h]
  · simp [rc_step, h, stencilFlat]

theorem rc_fold_fst (size : Nat) (prec : ℚ) (input : FlatGrid) :
    ∀ (len s : Nat) (st : FlatGrid × Bool), size ≤ s → ∀ ri,
      ((List.range' s len).foldl (rc_step size prec input) st).1 ri =
        if s ≤ ri + size ∧ ri + size < s + len then
          (if (ri + size) % size = 0 ∨ (ri + size + 1) % size = 0
           then input (ri + size)
           else stencilFlat size input (ri + size))
        else st.1 ri := by
  intro len
  induction len with
  | zero =>
    intro s st hs ri
    rw [if_neg (by omega)]
    rfl
  | succ len ih =>
    intro s st hs ri
    have hr : List.range' s (len + 1) = s :: List.range' (s + 1) len := rfl
    rw [hr, List.foldl_cons, ih (s + 1) _ (by omega) ri]
    by_cases h1 : s + 1 ≤ ri + size ∧ ri + size < s + 1 + len
    · rw [if_pos h1,
        if_pos (show s ≤ ri + size ∧ ri + size < s + (len + 1) from by omega)]
    · rw [if_neg h1, rc_step_fst]
      by_cases h2 : ri + size = s
      · have hri : ri = s - size := by omega
        simp only [fupd, if_pos hri]
        rw [if_pos (show s ≤ ri + size ∧ ri + size < s + (len + 1) from
          by omega)]
        rw [show s = ri + size from h2.symm]
      · have hne : ¬(ri = s - size) := by omega
        simp only [fupd, if_neg hne]
        rw [if_neg (show ¬(s ≤ ri + size ∧ ri + size < s + (len + 1)) from
          by omega)]

theorem rc_fold_snd (size : Nat) (prec : ℚ) (input : FlatGrid) :
    ∀ (len s : Nat) (st : FlatGrid × Bool),
      (((List.range' s len).foldl (rc_step size prec input) st).2 = true ↔
        (st.2 = true ∧ ∀ ii, s ≤ ii → ii < s + len →
          ¬(ii % size = 0 ∨ (ii + 1) % size = 0) →
          |stencilFlat size input ii - input ii| ≤ prec)) := by
  intro len
  induction len with
  | zero =>
    intro s st
    constructor
    · intro h
      exact ⟨h, by omega⟩
    · intro h
      exact h.1
  | succ len ih =>
    intro s st
    have hr : List.range' s (len + 1) = s :: List.range' (s + 1) len := rfl
    rw [hr, List.foldl_cons, ih (s + 1)]
    rw [rc_step_snd]
    by_cases hedge : s % size = 0 ∨ (s + 1) % size = 0
    · rw [if_pos hedge]
      constructor
      · rintro ⟨h1, h2⟩
        refine ⟨h1, ?_⟩
        intro ii hii1 hii2 hii3
        rcases Nat.eq_or_lt_of_le hii1 with heq | hlt
        · exact absurd hedge (heq ▸ hii3)
        · exact h2 ii hlt (by omega) hii3
      · rintro ⟨h1, h2⟩
        exact ⟨h1, fun ii hii1 hii2 hii3 => h2 ii (by omega) (by omega) hii3⟩
    · rw [if_neg hedge]
      constructor
      · rintro ⟨h1, h2⟩
        by_cases hst : st.2 = true
        · by_cases hd : prec < |stencilFlat size input s - input s|
          · rw [if_pos ⟨hst, hd⟩] at h1
            exact absurd h1 (by simp)
          · refine ⟨hst, ?_⟩
            intro ii hii1 hii2 hii3
            rcases Nat.eq_or_lt_of_le hii1 with heq | hlt
            · subst heq
              exact le_of_not_lt hd
            · exact h2 ii hlt (by omega) hii3
        · rw [if_neg (by simp [hst])] at h1
          exact absurd h1 hst
      · rintro ⟨h1, h2⟩
        have hd : ¬ prec < |stencilFlat size input s - input s| := by
          rw [not_lt]
          exact h2 s (le_refl s) (by omega) hedge
        rw [if_neg (by simp [hd])]
        exact ⟨h1, fun ii hii1 hii2 hii3 => h2 ii (by omega) (by omega) hii3⟩

theorem relax_cells_mpi_fst (size : Nat) (prec : ℚ) (input : FlatGrid)
    (input_size : Nat) {ri : Nat} (hri : ri < input_size - 2 * size) :
    (relax_cells_mpi size prec input input_size).1 ri =
      if (ri + size) % size = 0 ∨ (ri + size + 1) % size = 0
      then input (ri + size)
      else stencilFlat size input (ri + size) := by
  unfold relax_cells_mpi
  rw [rc_fold_fst size prec input _ size _ (le_refl size) ri,
    if_pos (by omega)]

theorem relax_cells_mpi_snd (size : Nat) (prec : ℚ) (input : FlatGrid)
    (input_size : Nat) :
    ((relax_cells_mpi size prec input input_size).2 = true ↔
      ∀ ii, size ≤ ii → ii < size + (input_size - 2 * size) →
        ¬(ii % size = 0 ∨ (ii + 1) % size = 0) →
        |stencilFlat size input ii - input ii| ≤ prec) := by
  unfold relax_cells_mpi
  rw [rc_fold_snd size prec input _ size _]
  simp only [true_and]

theorem mpi_partition_length (size np : Nat) :
    (mpi_partition size np).length = np :=
  mpiGo_length size _ np _ 0

theorem mpi_partition_getElem {size np m : Nat} (hm : m < np) :
    (mpi_partition size np)[m]? =
      some { scatter_displ := mpi_offr size np m * size,
             scatter_count := (mpi_w size np m + 2) * size,
             gather_count := mpi_w size np m * size,
             gather_displ := mpi_offr size np m * size + size } := by
  unfold mpi_partition
  rw [mpiGo_getElem size _ np _ 0 m hm]
  simp only [Nat.zero_add, mpi_offr, mpi_w, mpi_rpp, mpi_remr]

theorem mpi_partition_mem {size np : Nat} {info : ScatterInfo}
    (h : info ∈ mpi_partition size np) :
    ∃ m, m < np ∧
      info = { scatter_displ := mpi_offr size np m * size,
               scatter_count := (mpi_w size np m + 2) * size,
               gather_count := mpi_w size np m * size,
               gather_displ := mpi_offr size np m * size + size } := by
  rw [List.mem_iff_getElem] at h
  obtain ⟨i, hi, hei⟩ := h
  have hlen := mpi_partition_length size np
  have hinp : i < np := by omega
  refine ⟨i, hinp, ?_⟩
  have h1 : (mpi_partition size np)[i]? = some info := by
    rw [List.getElem?_eq_getElem hi, hei]
  rw [mpi_partition_getElem hinp] at h1
  exact (Option.some.injEq _ _).mp h1.symm

theorem mpi_offr_succ (size np m : Nat) :
    mpi_offr size np (m + 1) = mpi_offr size np m + mpi_w size np m := by
  simp only [mpi_offr, mpi_w]
  rw [Nat.succ_mul]
  by_cases h : m < mpi_remr size np
  · rw [if_pos h]
    omega
  · rw [if_neg h]
    omega

theorem mpi_offr_le {size np m : Nat} (hnp : 1 ≤ np) (hm : m ≤ np) :
    mpi_offr size np m ≤ size - 2 := by
  have h1 : np * mpi_rpp size np + mpi_remr size np = size - 2 :=
    Nat.div_add_mod (size - 2) np
  have h2 : m * mpi_rpp size np ≤ np * mpi_rpp size np :=
    Nat.mul_le_mul_right _ hm
  simp only [mpi_offr]
  omega

theorem mpi_region_boundary {size np : Nat} (prec : ℚ) (hs : 3 ≤ size)
    (hnp : 1 ≤ np) (m : FlatGrid) (idx : Nat)
    (hb : idx < size ∨ size * (size - 1) ≤ idx ∨ idx % size = 0 ∨
      idx % size = size - 1) :
    ∀ info ∈ mpi_partition size np,
      info.gather_displ ≤ idx →
      idx < info.gather_displ + info.gather_count →
      (relax_cells_mpi size prec (fun k => m (info.scatter_displ + k))
        info.scatter_count).1 (idx - info.gather_displ) = m idx := by
  intro info hmem hge hlt
  obtain ⟨p, hp, rfl⟩ := mpi_partition_mem hmem
  have hge2 : mpi_offr size np p * size + size ≤ idx := hge
  have hlt2 : idx < mpi_offr size np p * size + size +
      mpi_w size np p * size := hlt
  show (relax_cells_mpi size prec
      (fun k => m (mpi_offr size np p * size + k))
      ((mpi_w size np p + 2) * size)).1
      (idx - (mpi_offr size np p * size + size)) = m idx
  have hub : mpi_offr size np p + mpi_w size np p ≤ size - 2 := by
    rw [← mpi_offr_succ]
    exact mpi_offr_le hnp (by omega)
  have hsub : (mpi_w size np p + 2) * size - 2 * size =
      mpi_w size np p * size := by
    have : (mpi_w size np p + 2) * size = mpi_w size np p * size + 2 * size :=
      by ring
    omega
  have hcm : mpi_offr size np p * size = size * mpi_offr size np p :=
    Nat.mul_comm _ _
  clear hge hlt hmem
  rcases hb with hb | hb | hb | hb
  · exact absurd hb (Nat.not_lt.mpr
      (le_trans (Nat.le_add_left size _) hge2))
  · exfalso
    have h1 : mpi_offr size np p * size + size + mpi_w size np p * size =
        (mpi_offr size np p + mpi_w size np p + 1) * size := by ring
    have h2 : (mpi_offr size np p + mpi_w size np p + 1) * size ≤
        (size - 1) * size := Nat.mul_le_mul_right size
      (show mpi_offr size np p + mpi_w size np p + 1 ≤ size - 1 by omega)
    have h3 : (size - 1) * size = size * (size - 1) := Nat.mul_comm _ _
    have hlt3 : idx < (mpi_offr size np p + mpi_w size np p + 1) * size := by
      rw [← h1]
      exact hlt2
    have hfin : idx < size * (size - 1) :=
      lt_of_lt_of_le hlt3 (le_trans h2 (le_of_eq h3))
    exact absurd hb (Nat.not_le.mpr hfin)
  · have hri : idx - (mpi_offr size np p * size + size) <
        (mpi_w size np p + 2) * size - 2 * size := by
      rw [hsub]
      omega
    rw [relax_cells_mpi_fst size prec _ _ hri]
    have hplus : idx - (mpi_offr size np p * size + size) + size =
        idx - size * mpi_offr size np p := by
      rw [← hcm]
      omega
    have hmod : (idx - size * mpi_offr size np p) % size = idx % size :=
      Nat.sub_mul_mod (by rw [← hcm]; omega)
    rw [if_pos (Or.inl (by rw [hplus, hmod]; exact hb))]
    show m _ = m idx
    refine congrArg m ?_
    clear hplus hmod hri hsub hcm hub hlt2
    omega
  · have hri : idx - (mpi_offr size np p * size + size) <
        (mpi_w size np p + 2) * size - 2 * size := by
      rw [hsub]
      omega
    rw [relax_cells_mpi_fst size prec _ _ hri]
    have hplus : idx - (mpi_offr size np p * size + size) + size + 1 =
        idx + 1 - size * mpi_offr size np p := by
      rw [← hcm]
      omega
    have hmod : (idx + 1 - size * mpi_offr size np p) % size =
        (idx + 1) % size := Nat.sub_mul_mod (by rw [← hcm]; omega)
    have hzero : (idx + 1) % size = 0 := by
      have hs1 : 1 ≤ size := by
        rcases Nat.eq_zero_or_pos size with h0 | h0
        · subst h0
          exfalso
          omega
        · exact h0
      have hdm := Nat.div_add_mod idx size
      have h1 : idx + 1 = size * (idx / size + 1) := by
        rw [Nat.mul_add, Nat.mul_one]
        omega
      rw [h1, Nat.mul_mod_right]
    rw [if_pos (Or.inr (by rw [hplus, hmod]; exact hzero))]
    show m _ = m idx
    refine congrArg m ?_
    clear hplus hmod hri hsub hcm hub hlt2 hzero
    omega

theorem zip_map_self {a b : Type} :
    ∀ (l : List a) (g : a → b), l.zip (l.map g) = l.map (fun x => (x, g x)) := by
  intro l g
  induction l with
  | nil => rfl
  | cons x rest ih => simp [ih]

theorem gather_fold_keep (m : FlatGrid) :
    ∀ (pairs : List (ScatterInfo × (FlatGrid × Bool))) (acc : FlatGrid)
      (idx : Nat),
      (∀ p ∈ pairs, p.1.gather_displ ≤ idx →
        idx < p.1.gather_displ + p.1.gather_count →
        p.2.1 (idx - p.1.gather_displ) = m idx) →
      acc idx = m idx →
      (pairs.foldl (fun acc2 pr => gatherOne acc2 pr.1 pr.2.1) acc) idx =
        m idx := by
  intro pairs
  induction pairs with
  | nil => intro acc idx _ hacc; exact hacc
  | cons p rest ih =>
    intro acc idx h hacc
    rw [List.foldl_cons]
    refine ih _ idx (fun q hq => h q (List.mem_cons_of_mem p hq)) ?_
    simp only [gatherOne]
    by_cases hin : p.1.gather_displ ≤ idx ∧
        idx < p.1.gather_displ + p.1.gather_count
    · rw [if_pos hin]
      exact h p (List.mem_cons_self p rest) hin.1 hin.2
    · rw [if_neg hin]
      exact hacc

theorem mpi_round_fst_boundary {size np : Nat} (prec : ℚ) (hs : 3 ≤ size)
    (hnp : 1 ≤ np) (m : FlatGrid) (idx : Nat)
    (hb : idx < size ∨ size * (size - 1) ≤ idx ∨ idx % size = 0 ∨
      idx % size = size - 1) :
    (mpi_round size np prec m).1 idx = m idx := by
  unfold mpi_round
  simp only
  apply gather_fold_keep m _ m idx ?_ rfl
  intro p hp hge hlt
  have hz : (mpi_partition size np).zip ((mpi_partition size np).map
      (fun info => relax_cells_mpi size prec
        (fun k => m (info.scatter_displ + k)) info.scatter_count)) =
      (mpi_partition size np).map (fun info => (info,
        relax_cells_mpi size prec (fun k => m (info.scatter_displ + k))
          info.scatter_count)) :=
    zip_map_self _ _
  rw [hz] at hp
  obtain ⟨info, hinfo, rfl⟩ := List.mem_map.mp hp
  exact mpi_region_boundary prec hs hnp m idx hb info hinfo hge hlt

theorem mpi_iterate_boundary {size np : Nat} (prec : ℚ) (hs : 3 ≤ size)
    (hnp : 1 ≤ np) :
    ∀ (n : Nat) (m : FlatGrid) (idx : Nat),
      (idx < size ∨ size * (size - 1) ≤ idx ∨ idx % size = 0 ∨
        idx % size = size - 1) →
      mpi_iterate size np prec m n idx = m idx := by
  intro n
  induction n with
  | zero => intro m idx _; rfl
  | succ n ih =>
    intro m idx hb
    simp only [mpi_iterate]
    rw [ih _ idx hb]
    exact mpi_round_fst_boundary prec hs hnp m idx hb

/- Characterisation of the pthread matrix_init loops. -/

theorem init_cols_untouched (size : Nat) (rand : Nat → ℚ) (i : Nat) :
    ∀ (fuel j : Nat) (g : Grid) (ctr : Nat) (a b : Nat), a ≠ i ∨ b < j →
      (init_cols size rand i j fuel g ctr).1 a b = g a b := by
  intro fuel
  induction fuel with
  | zero => intro j g ctr a b _; rfl
  | succ fuel ih =>
    intro j g ctr a b hab
    simp only [init_cols]
    by_cases hc : i = 0 ∨ j = 0
    · rw [if_pos hc, ih (j + 1) _ _ a b (by omega)]
      simp only [upd]
      rw [if_neg (by omega)]
    · rw [if_neg hc, ih (j + 1) _ _ a b (by omega)]
      simp only [upd]
      rw [if_neg (by omega)]

theorem init_cols_i0 (size : Nat) (rand : Nat → ℚ) :
    ∀ (fuel j : Nat) (g : Grid) (ctr : Nat),
      (init_cols size rand 0 j fuel g ctr).2 = ctr ∧
      (∀ b, j ≤ b → b < j + fuel →
        (init_cols size rand 0 j fuel g ctr).1 0 b = 1) := by
  intro fuel
  induction fuel with
  | zero => intro j g ctr; exact ⟨rfl, by omega⟩
  | succ fuel ih =>
    intro j g ctr
    simp only [init_cols]
    rw [if_pos (show True ∨ j = 0 from Or.inl trivial)]
    refine ⟨(ih (j + 1) _ ctr).1, ?_⟩
    intro b hb1 hb2
    rcases Nat.eq_or_lt_of_le hb1 with heq | hlt
    · subst heq
      rw [init_cols_untouched size rand 0 fuel (j + 1) _ ctr 0 j
        (Or.inr (by omega))]
      simp [upd]
    · exact (ih (j + 1) _ ctr).2 b hlt (by omega)

theorem init_cols_pos (size : Nat) (rand : Nat → ℚ) (i : Nat) (hi : 1 ≤ i) :
    ∀ (fuel j : Nat) (g : Grid) (ctr : Nat), 1 ≤ j →
      (init_cols size rand i j fuel g ctr).2 = ctr + fuel ∧
      (∀ b, j ≤ b → b < j + fuel →
        (init_cols size rand i j fuel g ctr).1 i b = rand (ctr + (b - j))) := by
  intro fuel
  induction fuel with
  | zero => intro j g ctr _; exact ⟨rfl, by omega⟩
  | succ fuel ih =>
    intro j g ctr hj
    simp only [init_cols, if_neg (show ¬(i = 0 ∨ j = 0) from by omega)]
    constructor
    · rw [(ih (j + 1) _ (ctr + 1) (by omega)).1]
      omega
    · intro b hb1 hb2
      rcases Nat.eq_or_lt_of_le hb1 with heq | hlt
      · subst heq
        rw [init_cols_untouched size rand i fuel (j + 1) _ (ctr + 1) i j
          (Or.inr (by omega))]
        simp [upd, Nat.sub_self]
      · rw [(ih (j + 1) _ (ctr + 1) (by omega)).2 b hlt (by omega)]
        exact congrArg rand (by omega)

theorem init_cols_start0 (size : Nat) (rand : Nat → ℚ) (i : Nat) (hi : 1 ≤ i)
    (hsz : 1 ≤ size) (g : Grid) (ctr : Nat) :
    (init_cols size rand i 0 size g ctr).2 = ctr + (size - 1) ∧
    (∀ b, b < size → (init_cols size rand i 0 size g ctr).1 i b =
      if b = 0 then 1 else rand (ctr + (b - 1))) := by
  obtain ⟨f, hf⟩ : ∃ f, size = f + 1 := ⟨size - 1, by omega⟩
  subst hf
  simp only [init_cols, Nat.zero_add, Nat.add_sub_cancel]
  rw [if_pos (Or.inr trivial)]
  have hpos := init_cols_pos (f + 1) rand i hi f 1 (upd g i 0 1) ctr
    (le_refl 1)
  refine ⟨hpos.1, ?_⟩
  intro b hb
  by_cases hb0 : b = 0
  · subst hb0
    rw [if_pos rfl]
    rw [init_cols_untouched (f + 1) rand i f 1 _ ctr i 0 (Or.inr (by omega))]
    simp [upd]
  · rw [if_neg hb0]
    rw [hpos.2 b (by omega) (by omega)]

theorem init_rows_untouched (size : Nat) (rand : Nat → ℚ) :
    ∀ (fuel i0 : Nat) (g : Grid) (ctr : Nat) (a b : Nat), a < i0 →
      (init_rows size rand i0 fuel g ctr).1 a b = g a b := by
  intro fuel
  induction fuel with
  | zero => intro i0 g ctr a b _; rfl
  | succ fuel ih =>
    intro i0 g ctr a b ha
    simp only [init_rows]
    rw [ih (i0 + 1) _ _ a b (by omega)]
    exact init_cols_untouched size rand i0 size 0 g ctr a b (Or.inl (by omega))

theorem init_rows_pos (size : Nat) (rand : Nat → ℚ) (hsz : 1 ≤ size) :
    ∀ (fuel i0 : Nat) (g : Grid) (ctr : Nat), 1 ≤ i0 →
      (init_rows size rand i0 fuel g ctr).2 = ctr + fuel * (size - 1) ∧
      (∀ a b, i0 ≤ a → a < i0 + fuel → b < size →
        (init_rows size rand i0 fuel g ctr).1 a b =
          if b = 0 then 1 else rand (ctr + (a - i0) * (size - 1) + (b - 1))) := by
  intro fuel
  induction fuel with
  | zero =>
    intro i0 g ctr _
    refine ⟨by simp [init_rows], ?_⟩
    intro a b h1 h2 _
    exact absurd h2 (by omega)
  | succ fuel ih =>
    intro i0 g ctr hi0
    have hcols := init_cols_start0 size rand i0 hi0 hsz g ctr
    simp only [init_rows]
    constructor
    · rw [(ih (i0 + 1) _ _ (by omega)).1, hcols.1]
      have : (fuel + 1) * (size - 1) = fuel * (size - 1) + (size - 1) := by
        ring
      omega
    · intro a b ha1 ha2 hb
      rcases Nat.eq_or_lt_of_le ha1 with heq | hlt
      · subst heq
        rw [init_rows_untouched size rand fuel (i0 + 1) _ _ i0 b (by omega)]
        rw [hcols.2 b hb]
        by_cases hb0 : b = 0
        · rw [if_pos hb0, if_pos hb0]
        · rw [if_neg hb0, if_neg hb0]
          refine congrArg rand ?_
          rw [Nat.sub_self, Nat.zero_mul]
          omega
      · rw [(ih (i0 + 1) _ _ (by omega)).2 a b hlt (by omega) hb, hcols.1]
        by_cases hb0 : b = 0
        · rw [if_pos hb0, if_pos hb0]
        · rw [if_neg hb0, if_neg hb0]
          refine congrArg rand ?_
          have hsm : a - i0 = (a - (i0 + 1)) + 1 := by omega
          rw [hsm, Nat.succ_mul]
          omega

theorem matrix_init_char (size : Nat) (rand : Nat → ℚ) (hsz : 2 ≤ size)
    {a b : Nat} (ha : a < size) (hb : b < size) :
    matrix_init size rand a b =
      if a = 0 ∨ b = 0 then 1
      else rand ((a - 1) * (size - 1) + (b - 1)) := by
  unfold matrix_init
  obtain ⟨f, hf⟩ : ∃ f, size = f + 1 := ⟨size - 1, by omega⟩
  have hrows0 : init_rows size rand 0 size (fun _ _ => 0) 0 =
      init_rows size rand 1 f
        (init_cols size rand 0 0 size (fun _ _ => 0) 0).1
        (init_cols size rand 0 0 size (fun _ _ => 0) 0).2 := by
    rw [hf]
    simp only [init_rows]
  have hi0 := init_cols_i0 size rand size 0 (fun _ _ => 0) 0
  by_cases ha0 : a = 0
  · subst ha0
    rw [if_pos (Or.inl rfl), hrows0]
    rw [init_rows_untouched size rand f 1 _ _ 0 b (by omega)]
    exact hi0.2 b (by omega) (by omega)
  · have hpos := init_rows_pos size rand (by omega) f 1
      (init_cols size rand 0 0 size (fun _ _ => 0) 0).1
      (init_cols size rand 0 0 size (fun _ _ => 0) 0).2 (le_refl 1)
    rw [hrows0, hpos.2 a b (by omega) (by omega) hb, hi0.1]
    by_cases hb0 : b = 0
    · rw [if_pos hb0, if_pos (Or.inr hb0)]
    · rw [if_neg hb0, if_neg (by omega)]
      exact congrArg rand (by omega)

theorem matrix_init_cached_stable (size : Nat) (rand : Nat → ℚ) :
    (matrix_init_cached size rand
        ((matrix_init_cached size rand none).2)).1 =
      (matrix_init_cached size rand none).1 := rfl

theorem matrix_init_mpi_char (size : Nat) (hsz : 2 ≤ size) {r c : Nat}
    (hr : r < size) (hc : c < size) :
    matrix_init_mpi size (r * size + c) =
      if c = 0 ∨ r = 0 ∨ r = size - 1 ∨ c = size - 1 then 1 else 0 := by
  have hmod : (r * size + c) % size = c := by
    rw [Nat.add_comm, Nat.add_mul_mod_self_right]
    exact Nat.mod_eq_of_lt hc
  have htop : (r * size + c < size) ↔ r = 0 := by
    constructor
    · intro h
      by_contra hr0
      have h1 : size ≤ r * size := Nat.le_mul_of_pos_left size (by omega)
      omega
    · intro h
      subst h
      simpa using hc
  have hbot : (size * (size - 1) ≤ r * size + c) ↔ r = size - 1 := by
    constructor
    · intro h
      by_contra hr1
      have h2 : r + 1 ≤ size - 1 := by omega
      have h3 : (r + 1) * size ≤ (size - 1) * size :=
        Nat.mul_le_mul_right size h2
      have h4 : (r + 1) * size = r * size + size := by ring
      have h5 : (size - 1) * size = size * (size - 1) := Nat.mul_comm _ _
      omega
    · intro h
      subst h
      have h5 : (size - 1) * size = size * (size - 1) := Nat.mul_comm _ _
      omega
  unfold matrix_init_mpi
  simp only [hmod, htop, hbot]

/-- C1: evaluation of the shared-memory coordinator at a concrete grid that
converges in one (odd) pass: the workers write the final value 1 into the
new-matrix buffer, but relax_matrix_parallel returns the fixed `matrix`
buffer, whose interior cell still holds the pre-final value 0. -/
theorem C1_code_eval :
    (sm_run 3 1 2 demoGrid 1).map (fun g => g 1 1) = some 0 ∧
      (run_all 3 2 demoGrid (determine_thread_data 3 1) demoGrid).1 1 1 = 1 ∧
      (0 : ℚ) ≠ 1 := by
  refine ⟨?_, ?_, by norm_num⟩
  · norm_num [sm_run, sm_loop, sm_step, run_all, relax_run,
      determine_thread_data, dtdGo, advance, step, upd, combine_precision,
      demoGrid]
  · norm_num [run_all, relax_run, determine_thread_data, dtdGo, advance,
      step, upd, demoGrid]

/-- C2 counterexample: at size 4 with 5 requested processes the distributed
main rejects the run (return 1) instead of clamping to size - 2 = 2 and
proceeding as the claim states. -/
theorem C2_counterexample :
    mpi_worker_resolution 4 5 = MpiArgCheck.rejected ∧
      mpi_worker_resolution 4 5 ≠ MpiArgCheck.proceed 2 := by decide

/-- C2 (amended): the shared-memory main clamps a thread count above
(size-2)^2 to (size-2)^2 and proceeds, but the distributed main rejects a
process count above size - 2 with an error instead of clamping; process
counts up to size - 2 proceed unchanged. -/
theorem C2_amended_clamping :
    (∀ size nt : Nat, (size - 2) * (size - 2) < nt →
        clamp_num_threads size nt = (size - 2) * (size - 2)) ∧
    (∀ size nt : Nat, nt ≤ (size - 2) * (size - 2) →
        clamp_num_threads size nt = nt) ∧
    (∀ size np : Nat, size - 2 < np →
        mpi_worker_resolution size np = MpiArgCheck.rejected) ∧
    (∀ size np : Nat, np ≤ size - 2 →
        mpi_worker_resolution size np = MpiArgCheck.proceed np) := by
  refine ⟨?_, ?_, ?_, ?_⟩
  · intro size nt h
    simp only [clamp_num_threads]
    rw [if_pos h]
  · intro size nt h
    simp only [clamp_num_threads]
    rw [if_neg (by omega)]
  · intro size np h
    simp only [mpi_worker_resolution]
    rw [if_pos h]
  · intro size np h
    simp only [mpi_worker_resolution]
    rw [if_neg (by omega)]

/-- C2 witness: concrete instances of the amended claim. -/
theorem C2_witness :
    clamp_num_threads 4 9 = 4 ∧ clamp_num_threads 4 3 = 3 ∧
      mpi_worker_resolution 4 5 = MpiArgCheck.rejected ∧
      mpi_worker_resolution 4 2 = MpiArgCheck.proceed 2 :=
  ⟨C2_amended_clamping.1 4 9 (by norm_num),
   C2_amended_clamping.2.1 4 3 (by norm_num),
   C2_amended_clamping.2.2.1 4 5 (by norm_num),
   C2_amended_clamping.2.2.2 4 2 (by norm_num)⟩

/-- C3: evaluation of determine_thread_data at size 4 with 3 threads: the
source computes remainder = 4 % (4 / 3) = 0, so no thread receives an extra
cell and the cell counts are [1, 1, 1], while the claim requires the first
4 mod 3 = 1 thread to receive one extra cell, i.e. counts [2, 1, 1]. -/
theorem C3_code_eval :
    ((determine_thread_data 4 3).map (fun t => t.cells) = [1, 1, 1]) ∧
      (4 : Nat) % 3 = 1 ∧ ([1, 1, 1] : List Nat) ≠ [2, 1, 1] := by decide

/-- C4: evaluation of determine_thread_data at size 4 with 3 threads: only
three of the four interior cells are assigned and the interior cell (2, 2)
is visited by no thread, so the partition has a gap. -/
theorem C4_code_eval :
    ((determine_thread_data 4 3).map
        (fun t => (t.start_i, t.start_j, t.cells)) =
      [(1, 1, 1), (1, 2, 1), (2, 1, 1)]) ∧
      ((determine_thread_data 4 3).all
        (fun td => !(coversB 4 td (2, 2))) = true) := by decide

/-- C5: each worker writes next = (up + down + left + right) / 4 computed
from the current buffer at every assigned cell (the k-th cell of a run
starting at interior offset t is cell t + k), the grid it writes is
independent of the precision flag (so a failed precision check never
suppresses a computation), and the MPI relax_cells writes the stencil
average at every non-edge working cell. -/
theorem C5_worker_writes (size : Nat) (prec : ℚ) (hs : 3 ≤ size) :
    (∀ (cur next : Grid) (t c k : Nat) (flag : Bool), k < c →
      (relax_run size prec cur (posOf size t).1 (posOf size t).2 c next
          flag).1 (posOf size (t + k)).1 (posOf size (t + k)).2 =
        stencil cur (posOf size (t + k)).1 (posOf size (t + k)).2) ∧
    (∀ (cur next : Grid) (i j c : Nat) (f f' : Bool),
      (relax_run size prec cur i j c next f).1 =
        (relax_run size prec cur i j c next f').1) ∧
    (∀ (input : FlatGrid) (input_size ri : Nat),
      ri < input_size - 2 * size →
      ¬((ri + size) % size = 0 ∨ (ri + size + 1) % size = 0) →
      (relax_cells_mpi size prec input input_size).1 ri =
        stencilFlat size input (ri + size)) := by
  refine ⟨?_, ?_, ?_⟩
  · intro cur next t c k flag hk
    exact relax_run_value prec cur hs c t k next flag hk
  · intro cur next i j c f f'
    exact relax_run_fst_flag size prec cur c i j next f f'
  · intro input input_size ri h1 h2
    rw [relax_cells_mpi_fst size prec input input_size h1, if_neg h2]

/-- C5 witness: the single worker of a 3 x 3 grid writes the stencil
average of the interior cell. -/
theorem C5_witness :
    (relax_run 3 1 demoGrid (posOf 3 0).1 (posOf 3 0).2 1 demoGrid
        true).1 (posOf 3 (0 + 0)).1 (posOf 3 (0 + 0)).2 =
      stencil demoGrid (posOf 3 (0 + 0)).1 (posOf 3 (0 + 0)).2 :=
  (C5_worker_writes 3 1 (by decide)).1 demoGrid demoGrid 0 1 0 true
    (by decide)

/-- C6: a worker's per-pass flag (starting true, as the coordinator resets
it) is true iff every cell of its run changed by at most the precision
threshold; the coordinator's scan of a non-empty flag array computes the
conjunction of the flags; and the MPI local flag is true iff every
non-edge working cell changed by at most the threshold. -/
theorem C6_convergence_flags (size : Nat) (prec : ℚ) (hs : 3 ≤ size) :
    (∀ (cur next : Grid) (t c : Nat),
      ((relax_run size prec cur (posOf size t).1 (posOf size t).2 c next
          true).2 = true ↔
        ∀ k, k < c →
          |stencil cur (posOf size (t + k)).1 (posOf size (t + k)).2 -
            cur (posOf size (t + k)).1 (posOf size (t + k)).2| ≤ prec)) ∧
    (∀ (flags : List Bool) (pr : Bool), flags ≠ [] →
      combine_precision pr flags = flags.all (fun b => b)) ∧
    (∀ (input : FlatGrid) (input_size : Nat),
      ((relax_cells_mpi size prec input input_size).2 = true ↔
        ∀ ii, size ≤ ii → ii < size + (input_size - 2 * size) →
          ¬(ii % size = 0 ∨ (ii + 1) % size = 0) →
          |stencilFlat size input ii - input ii| ≤ prec)) := by
  refine ⟨?_, combine_precision_ne_nil, relax_cells_mpi_snd size prec⟩
  intro cur next t c
  rw [relax_run_snd_iff size prec cur c _ _ next true]
  constructor
  · rintro ⟨_, h⟩ k hk
    have h2 := h k hk
    rwa [show ((posOf size t).1, (posOf size t).2) = posOf size t from rfl,
      advance_posOf hs t k] at h2
  · intro h
    refine ⟨rfl, ?_⟩
    intro k hk
    rw [show ((posOf size t).1, (posOf size t).2) = posOf size t from rfl,
      advance_posOf hs t k]
    exact h k hk

/-- C6 witness: the coordinator's scan of the flag array [true, false]
equals its conjunction. -/
theorem C6_witness :
    combine_precision false [true, false] =
      [true, false].all (fun b => b) :=
  (C6_convergence_flags 3 1 (by decide)).2.1 [true, false] false (by simp)

/-- C7: boundary cells never change after initialisation: after any number
of shared-memory coordinator iterations both buffers still hold the initial
values at every boundary cell, and after any number of MPI rounds the
canonical matrix is unchanged at every cell of the first row, last row,
first column or last column. -/
theorem C7_boundary_preserved (size W np : Nat) (prec : ℚ) (hs : 3 ≤ size)
    (hnp : 1 ≤ np) :
    (∀ (g : Grid) (n a b : Nat),
      a = 0 ∨ b = 0 ∨ a = size - 1 ∨ b = size - 1 →
      (sm_iterate size W prec n ⟨g, g, false⟩).b0 a b = g a b ∧
        (sm_iterate size W prec n ⟨g, g, false⟩).b1 a b = g a b) ∧
    (∀ (m : FlatGrid) (n idx : Nat),
      idx < size ∨ size * (size - 1) ≤ idx ∨ idx % size = 0 ∨
        idx % size = size - 1 →
      mpi_iterate size np prec m n idx = m idx) := by
  constructor
  · intro g n a b hb
    exact sm_iterate_boundary prec hs n ⟨g, g, false⟩ a b hb
  · intro m n idx hb
    exact mpi_iterate_boundary prec hs hnp n m idx hb

/-- C7 witness: after two coordinator iterations on a 3 x 3 grid the
boundary cell (0, 1) is unchanged in both buffers. -/
theorem C7_witness :
    (sm_iterate 3 1 1 2 ⟨demoGrid, demoGrid, false⟩).b0 0 1 =
        demoGrid 0 1 ∧
      (sm_iterate 3 1 1 2 ⟨demoGrid, demoGrid, false⟩).b1 0 1 =
        demoGrid 0 1 :=
  (C7_boundary_preserved 3 1 1 1 (by decide) (by decide)).1 demoGrid 2
    0 1 (Or.inl rfl)

/-- C8: the MPI scatter/gather tables: process m receives
(w m + 2) * size entries — its w m working rows plus exactly one halo row
above and one below (the gather displacement is one row after the scatter
displacement) — the gather takes back only the w m working rows, each
process has at least one working row, and the per-process working-row
offsets start at row 0, chain consecutively, and end at size - 2, so the
gather regions tile rows 1 .. size-2 disjointly and exhaustively. -/
theorem C8_scatter_gather (size np : Nat) (hs : 3 ≤ size) (hnp1 : 1 ≤ np)
    (hnp2 : np ≤ size - 2) :
    (mpi_partition size np).length = np ∧
    (∀ m, m < np →
      (mpi_partition size np)[m]? =
        some { scatter_displ := mpi_offr size np m * size,
               scatter_count := (mpi_w size np m + 2) * size,
               gather_count := mpi_w size np m * size,
               gather_displ := mpi_offr size np m * size + size }) ∧
    (∀ m, 1 ≤ mpi_w size np m) ∧
    mpi_offr size np 0 = 0 ∧
    (∀ m, mpi_offr size np (m + 1) =
      mpi_offr size np m + mpi_w size np m) ∧
    mpi_offr size np np = size - 2 := by
  have hrpp : 1 ≤ mpi_rpp size np := by
    rw [mpi_rpp, Nat.one_le_div_iff (by omega)]
    exact hnp2
  refine ⟨mpi_partition_length size np, fun m hm => mpi_partition_getElem hm,
    ?_, ?_, mpi_offr_succ size np, ?_⟩
  · intro m
    simp only [mpi_w]
    omega
  · simp [mpi_offr]
  · have hrem : mpi_remr size np < np := by
      rw [mpi_remr]
      exact Nat.mod_lt _ (by omega)
    have hdm : np * mpi_rpp size np + mpi_remr size np = size - 2 :=
      Nat.div_add_mod (size - 2) np
    simp only [mpi_offr]
    rw [Nat.min_eq_right (by omega)]
    exact hdm

/-- C8 witness: for a 5 x 5 grid with two processes the table has two
entries and the working-row offsets end at row count 3 = size - 2. -/
theorem C8_witness :
    (mpi_partition 5 2).length = 2 ∧ mpi_offr 5 2 2 = 3 :=
  ⟨(C8_scatter_gather 5 2 (by decide) (by decide) (by decide)).1,
   (C8_scatter_gather 5 2 (by decide) (by decide)
     (by decide)).2.2.2.2.2⟩

/-- C9: the MPI initializer sets exactly the four edges of the flat
size x size buffer to 1 and every interior cell to 0; the pthread
initializer on its first call sets exactly the top row and left column
to 1 and interior cell (a, b) to the ((a-1)*(size-1) + (b-1))-th draw of
the seeded pseudo-random stream; and a later call in the same run returns
exactly the cached first-call matrix. -/
theorem C9_initializers (size : Nat) (rand : Nat → ℚ) (hsz : 2 ≤ size) :
    (∀ r c : Nat, r < size → c < size →
      matrix_init_mpi size (r * size + c) =
        if c = 0 ∨ r = 0 ∨ r = size - 1 ∨ c = size - 1 then 1 else 0) ∧
    (∀ a b : Nat, a < size → b < size →
      matrix_init size rand a b =
        if a = 0 ∨ b = 0 then 1
        else rand ((a - 1) * (size - 1) + (b - 1))) ∧
    ((matrix_init_cached size rand
        ((matrix_init_cached size rand none).2)).1 =
      (matrix_init_cached size rand none).1) := by
  refine ⟨?_, ?_, matrix_init_cached_stable size rand⟩
  · intro r c hr hc
    exact matrix_init_mpi_char size hsz hr hc
  · intro a b ha hb
    exact matrix_init_char size rand hsz ha hb

/-- C9 witness: on a 3 x 3 grid the MPI initializer sets the centre cell
to 0 and an edge cell to 1, and the pthread initializer sets the centre
cell to the second draw of the stream. -/
theorem C9_witness :
    matrix_init_mpi 3 (1 * 3 + 1) = 0 ∧ matrix_init_mpi 3 (0 * 3 + 1) = 1 ∧
      matrix_init 3 (fun k => (k : ℚ)) 1 1 = 0 :=
  ⟨(C9_initializers 3 (fun k => (k : ℚ)) (by decide)).1 1 1 (by decide)
     (by decide),
   (C9_initializers 3 (fun k => (k : ℚ)) (by decide)).1 0 1 (by decide)
     (by decide),
   (C9_initializers 3 (fun k => (k : ℚ)) (by decide)).2.1 1 1 (by decide)
     (by decide)⟩

/- Bridging fact: whenever both divisions in determine_thread_data are
defined (at least one thread and at least one cell per thread, which the
main's validation and clamp guarantee for every size above 2), the checked
variant computes exactly the thread data the other theorems reason about. -/
theorem determine_thread_data_checked_some (size W : Nat) (hW : 1 ≤ W)
    (hcpt : 1 ≤ (size - 2) * (size - 2) / W) :
    determine_thread_data_checked size W =
      some (determine_thread_data size W) := by
  simp only [determine_thread_data_checked, determine_thread_data]
  rw [if_neg (by omega), if_neg (by omega)]

/-- C10 counterexample: at size 2 a requested thread count of 1 is indeed
clamped to (2-2)*(2-2) = 0 workers, but relax_matrix_parallel then calls
determine_thread_data before the coordinator loop, where cells_per_thread
= inner_cells / num_threads divides by zero; the run aborts there (SIGFPE
in practice) instead of entering the loop, so the coordinator loop does
not run forever as the claim states — it never runs at all. -/
theorem C10_counterexample :
    clamp_num_threads 2 1 = 0 ∧
      determine_thread_data_checked 2 0 = none ∧
      relax_matrix_parallel_checked 2 0 1 demoGrid 5 = SMOutcome.divFault ∧
      SMOutcome.divFault ≠ SMOutcome.running := by
  refine ⟨by decide, rfl, rfl, ?_⟩
  intro h
  exact SMOutcome.noConfusion h

/-- C10 (amended): for grid dimension 2 (accepted by validation, which
only rejects sizes below 2) the shared-memory main clamps any requested
thread count to (2-2)*(2-2) = 0 workers; with zero workers
determine_thread_data divides by zero (inner_cells / num_threads with
num_threads = 0, undefined behaviour, SIGFPE in practice), so every run
aborts before the coordinator loop is entered — the loop never executes a
single iteration, and in particular its flag-combining scan over the empty
flag array would leave PRECISION_REACHED at its initial value false. -/
theorem C10_size2_division_fault (prec : ℚ) :
    (∀ nt : Nat, 1 ≤ nt → clamp_num_threads 2 nt = 0) ∧
    determine_thread_data_checked 2 0 = none ∧
    (∀ (g : Grid) (fuel : Nat),
      relax_matrix_parallel_checked 2 0 prec g fuel = SMOutcome.divFault) ∧
    (∀ pr : Bool, combine_precision pr [] = pr) := by
  refine ⟨?_, rfl, fun g fuel => rfl, fun pr => rfl⟩
  intro nt hnt
  simp only [clamp_num_threads]
  rw [if_pos (by omega)]

/-- C10 witness: a requested thread count of 1 is clamped to 0 at size 2,
and the run with 0 workers aborts with the division fault. -/
theorem C10_witness :
    clamp_num_threads 2 1 = 0 ∧
      relax_matrix_parallel_checked 2 0 1 demoGrid 3 = SMOutcome.divFault :=
  ⟨(C10_size2_division_fault 1).1 1 (le_refl 1),
   (C10_size2_division_fault 1).2.2.1 demoGrid 3⟩
